import Mathlib

/-!
Verification of the goscaffold import pipeline: a shallow embedding of the
block extractor (pkg/parser), the statistics aggregator (pkg/stats), the
batch materialization engine (runBatch / processFile in the import
command), and the polling watch loop (runWatchMode), together with
theorems settling the specification claims about them.

Every definition mirrors the corresponding Go function of the repository;
filesystem and subprocess effects are made explicit as per-file
environment records, and the concurrent fan-out over files is
sequentialized (fan-in order fixed to input order, which is sound for the
counting and set-level properties proved here).
-/

namespace GoScaffold

/-- The White_Space code points recognized by the Go function
unicode.IsSpace. -/
def goIsSpace (c : Char) : Bool :=
  c = ' ' || c = '\t' || c = '\n' || c = '\x0b' || c = '\x0c' || c = '\r' ||
  c.toNat = 0x85 || c.toNat = 0xa0 || c.toNat = 0x1680 ||
  (0x2000 ≤ c.toNat && c.toNat ≤ 0x200a) ||
  c.toNat = 0x2028 || c.toNat = 0x2029 || c.toNat = 0x202f ||
  c.toNat = 0x205f || c.toNat = 0x3000

/-- strings.TrimSpace on a character list: drop Go whitespace from both
ends. -/
def goTrimSpaceL (l : List Char) : List Char :=
  ((l.dropWhile goIsSpace).reverse.dropWhile goIsSpace).reverse

/-- The call strings.Split(content, newline): split into lines, keeping
empty fields. -/
def splitNl : List Char → List (List Char)
  | [] => [[]]
  | c :: rest =>
    if c = '\n' then [] :: splitNl rest
    else
      match splitNl rest with
      | [] => [[c]]
      | l :: ls => (c :: l) :: ls

/-- strings.Contains on character lists. -/
def hasSubList (needle : List Char) : List Char → Bool
  | [] => needle.isEmpty
  | c :: rest => needle.isPrefixOf (c :: rest) || hasSubList needle rest

/-- The second field of strings.SplitN(hay, needle, 2): everything after
the first occurrence of the needle (the case of an absent needle is
irrelevant, since every caller guards with strings.Contains). -/
def afterFirstList (needle : List Char) : List Char → List Char
  | [] => []
  | c :: rest =>
    if needle.isPrefixOf (c :: rest) then (c :: rest).drop needle.length
    else afterFirstList needle rest

/-- The fence delimiter of parseMarkdown. -/
def fenceTok : List Char := "```".data

/-- The line-comment marker checked for path markers. -/
def slashTok : List Char := "//".data

/-- The path marker token. -/
def pathTok : List Char := "path:".data

/-- models.File: a parsed (destination path, file content) pair. -/
structure File where
  path : String
  code : String
deriving DecidableEq

/-- The loop state of parseMarkdown: whether we are inside a fenced block,
the most recent path capture, the raw accumulated body (the
strings.Builder), and the files emitted so far. -/
structure MdState where
  inBlock : Bool
  curPath : List Char
  curCode : List Char
  files : List File
deriving DecidableEq

/-- One iteration of the line loop of parseMarkdown, mirroring the Go
source: an opening fence resets the body; a closing fence emits a File
when the captured path is non-empty and the raw body has positive length
(the check currentCode.Len() > 0 is on the untrimmed body), trimming the
body; a comment line containing the path token inside a block updates the
captured path; any other in-block line is appended untrimmed to the body
plus a newline. -/
def mdStep (st : MdState) (line : List Char) : MdState :=
  let trimmed := goTrimSpaceL line
  if fenceTok.isPrefixOf trimmed && !st.inBlock then
    ⟨true, st.curPath, [], st.files⟩
  else if fenceTok.isPrefixOf trimmed && st.inBlock then
    let fs :=
      if !st.curPath.isEmpty && !st.curCode.isEmpty then
        st.files ++ [⟨String.mk st.curPath, String.mk (goTrimSpaceL st.curCode)⟩]
      else st.files
    ⟨false, [], st.curCode, fs⟩
  else if st.inBlock && slashTok.isPrefixOf trimmed && hasSubList pathTok trimmed then
    ⟨st.inBlock, goTrimSpaceL (afterFirstList pathTok trimmed), st.curCode, st.files⟩
  else if st.inBlock then
    ⟨st.inBlock, st.curPath, st.curCode ++ line ++ ['\n'], st.files⟩
  else st

/-- parseMarkdown from pkg/parser: fold the line loop over the split
input. -/
def parseMarkdown (content : String) : List File :=
  ((splitNl content.data).foldl mdStep ⟨false, [], [], []⟩).files

/-- parseYAMLStyle from pkg/parser: the body in the source is a stub —
commented as the implementation for separator-delimited blocks, simplified
for brevity — that returns nil. -/
def parseYAMLStyle (_content : String) : List File := []

/-- ParseMultiFormat from pkg/parser: try markdown code blocks first, fall
back to the YAML-style separator grammar only when nothing matched. -/
def ParseMultiFormat (content : String) : List File :=
  let files := [] ++ parseMarkdown content
  if files.length = 0 then files ++ parseYAMLStyle content else files

/-! ### Statistics aggregator (pkg/stats) -/

/-- Stats from pkg/stats: total file count, total byte count, and the
Languages map from extension bucket to count, modelled as an association
list with unique keys (Go map semantics for increment). -/
structure Stats where
  TotalFiles : Nat
  TotalBytes : Nat
  Languages : List (String × Nat)
deriving DecidableEq

/-- stats.New: zero counters, empty map. -/
def Stats.New : Stats := ⟨0, 0, []⟩

/-- Go len on a string: its UTF-8 byte length. -/
def goLen (s : String) : Nat := s.utf8ByteSize

/-- filepath.Ext, scanning the reversed path: walk back from the end, stop
at a path separator, return the suffix from the last dot (here built up in
the accumulator); empty when the final element has no dot. -/
def extRev : List Char → List Char → List Char
  | [], _ => []
  | c :: rest, acc =>
    if c = '/' then []
    else if c = '.' then '.' :: acc
    else extRev rest (c :: acc)

/-- strings.TrimPrefix with a dot: remove one leading dot if present. -/
def stripDot : List Char → List Char
  | '.' :: rest => rest
  | l => l

/-- The Languages key computed by Stats.AddFile: the extension of the path
without its leading dot, or the unknown bucket when that is empty. -/
def statsKey (path : String) : String :=
  let ext := stripDot (extRev path.data.reverse [])
  if ext.isEmpty then "unknown" else String.mk ext

/-- Increment of one key in the association-list model of a Go map. -/
def bump : List (String × Nat) → String → List (String × Nat)
  | [], k => [(k, 1)]
  | (k', v) :: rest, k =>
    if k' = k then (k', v + 1) :: rest else (k', v) :: bump rest k

/-- Stats.AddFile: increment the file count, add the byte length of the
code, and bump the extension bucket. -/
def Stats.AddFile (s : Stats) (path code : String) : Stats :=
  ⟨s.TotalFiles + 1, s.TotalBytes + goLen code, bump s.Languages (statsKey path)⟩

/-- Sum of the per-extension counts of a Languages map. -/
def sumCounts (m : List (String × Nat)) : Nat := (m.map Prod.snd).sum

/-! ### Batch materialization engine (runBatch / processFile) -/

/-- The filesystem/subprocess environment observed while processing one
file: whether the backup rename succeeds, whether os.MkdirAll succeeds,
whether a validator is registered for the extension of the file, whether
that validator accepts the code, and whether os.WriteFile succeeds. -/
structure FileEnv where
  backupOk : Bool
  mkdirOk : Bool
  hasValidator : Bool
  validateOk : Bool
  writeOk : Bool
deriving DecidableEq

/-- What one processFile call did: the error it returned (none on
success), whether the write to disk happened, and the warnings it
logged. -/
structure FileOutcome where
  err : Option String
  wrote : Bool
  warnings : List String
deriving DecidableEq

/-- processFile from the import command: backup (failure logged as a
warning only), MkdirAll (its failure is returned), validator lookup and
invocation (a validation failure is logged as a warning only), WriteFile
(its failure is returned), and on success Stats.AddFile. Returns the
outcome together with the updated stats. -/
def processFile (backupFiles : Bool) (env : FileEnv) (f : File) (s : Stats) :
    FileOutcome × Stats :=
  let w0 : List String :=
    if backupFiles && !env.backupOk then ["Backup failed " ++ f.path] else []
  if !env.mkdirOk then
    (⟨some ("create dir"), false, w0⟩, s)
  else
    let w1 := w0 ++
      (if env.hasValidator && !env.validateOk then ["Validation warning " ++ f.path] else [])
    if !env.writeOk then
      (⟨some ("write file"), false, w1⟩, s)
    else
      (⟨none, true, w1⟩, s.AddFile f.path f.code)

/-- getCreatedFiles from the import command: the paths of all the input
files, regardless of per-file outcome. -/
def getCreatedFiles (files : List File) : List String := files.map File.path

/-- The result of one runBatch call: the per-file errors collected from
the error channel, the final stats, the list of paths handed to the git
commit collaborator (none when no commit was attempted), and the error
returned by the run (none on success). -/
structure BatchResult where
  errs : List String
  stats : Stats
  committed : Option (List String)
  runErr : Option String
deriving DecidableEq

/-- The fan-in of the worker pool of runBatch, sequentialized in input
order: each file is processed, a failure contributes a path-prefixed
message to the error list, and the stats accumulate across files. -/
def batchLoop (backupFiles : Bool) (pairs : List (FileEnv × File))
    (acc : List String × Stats) : List String × Stats :=
  pairs.foldl
    (fun acc p =>
      let r := processFile backupFiles p.1 p.2 acc.2
      match r.1.err with
      | some e => (acc.1 ++ [p.2.path ++ ": " ++ e], r.2)
      | none => (acc.1, r.2))
    acc

/-- runBatch from the import command: process every file collecting
errors, then — when gitCommit is set and the Languages map is non-empty
(at least one file succeeded) — hand getCreatedFiles of the input list to
the commit collaborator; finally return the failure-count error exactly
when the error list is non-empty. -/
def runBatch (backupFiles gitCommit : Bool) (pairs : List (FileEnv × File)) :
    BatchResult :=
  let r := batchLoop backupFiles pairs ([], Stats.New)
  let committed :=
    if gitCommit && !r.2.Languages.isEmpty then
      some (getCreatedFiles (pairs.map Prod.snd))
    else none
  let runErr :=
    if r.1.length > 0 then some (toString r.1.length ++ " files failed")
    else none
  ⟨r.1, r.2, committed, runErr⟩

/-- Whether the processing of a file fails under its environment (its
returned error is non-nil). -/
def failsB (backupFiles : Bool) (p : FileEnv × File) : Bool :=
  (processFile backupFiles p.1 p.2 Stats.New).1.err.isSome

/-- The error-channel entry contributed by a failing file. -/
def errMsg (backupFiles : Bool) (p : FileEnv × File) : String :=
  p.2.path ++ ": " ++ ((processFile backupFiles p.1 p.2 Stats.New).1.err.getD (""))

/-! ### Watch loop (runWatchMode) -/

/-- The outcome of the os.Stat poll on the watched file: failure, or the
modification time of the file together with the content a subsequent
os.ReadFile returns. -/
inductive StatResult where
  | statErr : StatResult
  | statOk : Nat → String → StatResult
deriving DecidableEq

/-- One wake-up of the select statement in the watch loop: context
cancellation or a ticker tick with the result of the poll. -/
inductive WatchEvent where
  | ctxDone : WatchEvent
  | tick : StatResult → WatchEvent
deriving DecidableEq

/-- What one iteration of the watch loop did: whether the loop returned,
the stored fingerprint (lastMod) after the iteration, and the batch run it
performed, if any. -/
structure WatchStepResult where
  stopped : Bool
  lastMod : Nat
  ran : Option BatchResult
deriving DecidableEq

/-- One iteration of the loop in runWatchMode, mirroring the Go source:
cancellation returns from the loop; a failed os.Stat skips the cycle (the
continue statement); a modification time strictly after lastMod updates
lastMod first and then runs extraction plus runBatch when extraction
yields at least one file, with the batch error only logged. The function
envOf gives the filesystem environment of the i-th extracted file. -/
def watchStep (backupFiles gitCommit : Bool) (envOf : Nat → FileEnv)
    (lastMod : Nat) (ev : WatchEvent) : WatchStepResult :=
  match ev with
  | .ctxDone => ⟨true, lastMod, none⟩
  | .tick .statErr => ⟨false, lastMod, none⟩
  | .tick (.statOk mt content) =>
    if lastMod < mt then
      let files := ParseMultiFormat content
      if files.length > 0 then
        ⟨false, mt, some (runBatch backupFiles gitCommit
          (files.enum.map (fun p => (envOf p.1, p.2))))⟩
      else ⟨false, mt, none⟩
    else ⟨false, lastMod, none⟩

/-! ### Helper lemmas -/

/-- A non-fence line leaves an out-of-block parser state unchanged. -/
theorem mdStep_no_fence (st : MdState) (l : List Char) (hb : st.inBlock = false)
    (hf : fenceTok.isPrefixOf (goTrimSpaceL l) = false) : mdStep st l = st := by
  simp [mdStep, hf, hb]

/-- Folding the line loop over fence-free lines from an out-of-block state
is the identity. -/
theorem foldl_no_fence (lines : List (List Char)) (st : MdState) (hb : st.inBlock = false)
    (h : ∀ l ∈ lines, fenceTok.isPrefixOf (goTrimSpaceL l) = false) :
    lines.foldl mdStep st = st := by
  induction lines with
  | nil => rfl
  | cons l ls ih =>
    rw [List.foldl_cons, mdStep_no_fence st l hb (h l (by simp))]
    exact ih (fun x hx => h x (by simp [hx]))

/-- One parser step preserves the shape invariant of emitted files: a
non-empty path and a code field that is the trimmed form of a non-empty
raw body. -/
theorem mdStep_good (st : MdState) (l : List Char)
    (h : ∀ f ∈ st.files,
      f.path ≠ "" ∧ ∃ raw : List Char, raw ≠ [] ∧ f.code = String.mk (goTrimSpaceL raw)) :
    ∀ f ∈ (mdStep st l).files,
      f.path ≠ "" ∧ ∃ raw : List Char, raw ≠ [] ∧ f.code = String.mk (goTrimSpaceL raw) := by
  intro f hf
  by_cases hin : st.inBlock <;> by_cases hfen : fenceTok.isPrefixOf (goTrimSpaceL l)
  · simp only [mdStep, hin, hfen, Bool.not_true, Bool.and_false, Bool.and_true,
      Bool.true_and, Bool.false_and, if_false, if_true, Bool.false_eq_true,
      Bool.true_eq_false, ite_false, ite_true] at hf
    split_ifs at hf with hc
    · rcases List.mem_append.mp hf with hmem | hnew
      · exact h f hmem
      · have hfe : f = ⟨String.mk st.curPath, String.mk (goTrimSpaceL st.curCode)⟩ := by
          simpa using hnew
        subst hfe
        refine ⟨?_, st.curCode, ?_, rfl⟩
        · intro hcontra
          have hd : st.curPath = [] := congrArg String.data hcontra
          simp [hd] at hc
        · intro hcontra
          simp [hcontra] at hc
    · exact h f hf
  · simp only [mdStep, hin, hfen, Bool.false_and, Bool.and_false, Bool.true_and,
      Bool.false_eq_true, if_false, ite_false] at hf
    split_ifs at hf <;> exact h f hf
  · simp only [mdStep, hin, hfen, Bool.not_false, Bool.and_true, Bool.and_false,
      Bool.true_and, Bool.false_and, if_true, ite_true] at hf
    exact h f hf
  · simp only [mdStep, hin, hfen, Bool.false_and, Bool.and_false, Bool.false_eq_true,
      if_false, ite_false] at hf
    exact h f hf

/-- The shape invariant lifts through the whole fold. -/
theorem foldl_good (lines : List (List Char)) (st : MdState)
    (h : ∀ f ∈ st.files,
      f.path ≠ "" ∧ ∃ raw : List Char, raw ≠ [] ∧ f.code = String.mk (goTrimSpaceL raw)) :
    ∀ f ∈ (lines.foldl mdStep st).files,
      f.path ≠ "" ∧ ∃ raw : List Char, raw ≠ [] ∧ f.code = String.mk (goTrimSpaceL raw) := by
  induction lines generalizing st with
  | nil => exact h
  | cons l ls ih =>
    rw [List.foldl_cons]
    exact ih _ (mdStep_good st l h)

/-- Bumping one key raises the total count by exactly one. -/
theorem sumCounts_bump (m : List (String × Nat)) (k : String) :
    sumCounts (bump m k) = sumCounts m + 1 := by
  induction m with
  | nil => simp [bump, sumCounts]
  | cons p rest ih =>
    obtain ⟨k', v⟩ := p
    by_cases h : k' = k
    · simp [bump, h, sumCounts]
      omega
    · simp only [bump, h, if_false, ite_false]
      simp [sumCounts] at ih ⊢
      omega

/-- Counter bookkeeping of folding AddFile: file count, byte count and
language-bucket total all advance in lockstep with the input list. -/
theorem foldStats_counts (l : List (String × String)) (s : Stats) :
    (l.foldl (fun acc p => acc.AddFile p.1 p.2) s).TotalFiles = s.TotalFiles + l.length
    ∧ (l.foldl (fun acc p => acc.AddFile p.1 p.2) s).TotalBytes
        = s.TotalBytes + (l.map (fun p => goLen p.2)).sum
    ∧ sumCounts (l.foldl (fun acc p => acc.AddFile p.1 p.2) s).Languages
        = sumCounts s.Languages + l.length := by
  induction l generalizing s with
  | nil => simp
  | cons p rest ih =>
    simp only [List.foldl_cons, List.map_cons, List.sum_cons, List.length_cons]
    have h := ih (s.AddFile p.1 p.2)
    refine ⟨?_, ?_, ?_⟩
    · rw [h.1]; simp [Stats.AddFile]; omega
    · rw [h.2.1]; simp [Stats.AddFile]; omega
    · rw [h.2.2]; simp [Stats.AddFile, sumCounts_bump]; omega

/-- Every key of a bumped map is an old key or the bumped key. -/
theorem bump_keys (m : List (String × Nat)) (k : String) (k' : String) (n : Nat)
    (h : (k', n) ∈ bump m k) : (∃ n', (k', n') ∈ m) ∨ k' = k := by
  induction m with
  | nil =>
    simp [bump] at h
    right; exact h.1
  | cons p rest ih =>
    obtain ⟨k0, v⟩ := p
    by_cases hk : k0 = k
    · simp only [bump, hk, if_true, ite_true] at h
      rcases List.mem_cons.mp h with heq | hmem
      · left; exact ⟨v, by simp [Prod.ext_iff] at heq; simp [heq.1, hk]⟩
      · left; exact ⟨n, List.mem_cons_of_mem _ hmem⟩
    · simp only [bump, hk, if_false, ite_false] at h
      rcases List.mem_cons.mp h with heq | hmem
      · left; exact ⟨n, by rw [heq]; exact List.mem_cons_self _ _⟩
      · rcases ih hmem with ⟨n', hn'⟩ | hkk
        · left; exact ⟨n', List.mem_cons_of_mem _ hn'⟩
        · right; exact hkk

/-- The extension scan returns nothing or a dot followed by dot-free
characters. -/
theorem extRev_shape (l : List Char) : ∀ acc : List Char,
    acc.all (fun c => c ≠ '.') = true →
    extRev l acc = [] ∨
      ∃ acc', extRev l acc = '.' :: acc' ∧ acc'.all (fun c => c ≠ '.') = true := by
  induction l with
  | nil => intro acc h; left; rfl
  | cons c rest ih =>
    intro acc h
    by_cases h1 : c = '/'
    · left; simp [extRev, h1]
    · by_cases h2 : c = '.'
      · right
        refine ⟨acc, ?_, h⟩
        simp [extRev, h1, h2]
      · have hstep := ih (c :: acc) (by
          rw [List.all_cons]
          simp only [h, Bool.and_true]
          simpa using h2)
        simpa [extRev, h1, h2] using hstep

/-- The bucket key of a path never starts with a dot. -/
theorem statsKey_no_dot (path : String) : (statsKey path).data.head? ≠ some '.' := by
  unfold statsKey
  rcases extRev_shape path.data.reverse [] (by simp) with hnil | ⟨acc', hacc, hall⟩
  · rw [hnil]; decide
  · rw [hacc]
    simp only [stripDot]
    cases acc' with
    | nil => decide
    | cons a t =>
      simp only [List.isEmpty_cons, if_false, ite_false]
      have ha : a ≠ '.' := by
        have := List.all_eq_true.mp hall a (by simp)
        simpa using this
      simp [Bool.false_eq_true]
      exact fun hcontra => ha hcontra

/-- Starting from a dot-free map, folding AddFile keeps every key free of
a leading dot. -/
theorem foldStats_keys (l : List (String × String)) (s : Stats)
    (h : ∀ k n, (k, n) ∈ s.Languages → k.data.head? ≠ some '.') :
    ∀ k n, (k, n) ∈ (l.foldl (fun acc p => acc.AddFile p.1 p.2) s).Languages →
      k.data.head? ≠ some '.' := by
  induction l generalizing s with
  | nil => exact h
  | cons p rest ih =>
    rw [List.foldl_cons]
    apply ih
    intro k n hk
    rcases bump_keys _ _ _ _ hk with ⟨n', hm⟩ | rfl
    · exact h k n' hm
    · exact statsKey_no_dot p.1

/-- When the final path element has no dot, the extension scan is empty. -/
theorem extRev_no_dot_elem (l : List Char) : ∀ acc : List Char,
    (l.takeWhile (fun c => c ≠ '/')).all (fun c => c ≠ '.') = true →
    extRev l acc = [] := by
  induction l with
  | nil => intro acc _; rfl
  | cons c rest ih =>
    intro acc h
    by_cases h1 : c = '/'
    · simp [extRev, h1]
    · have htw : List.takeWhile (fun c => decide (c ≠ '/')) (c :: rest)
          = c :: List.takeWhile (fun c => decide (c ≠ '/')) rest := by
        simp [List.takeWhile_cons, h1]
      rw [htw] at h
      have h2 : c ≠ '.' := by
        have := List.all_eq_true.mp h c (by simp)
        simpa using this
      simp only [extRev, h1, h2, if_false, ite_false]
      refine ih _ (List.all_eq_true.mpr ?_)
      intro x hx
      exact List.all_eq_true.mp h x (List.mem_cons_of_mem _ hx)

/-- The outcome component of processFile does not depend on the incoming
stats. -/
theorem processFile_outcome_indep (b : Bool) (env : FileEnv) (f : File) (s : Stats) :
    (processFile b env f s).1 = (processFile b env f Stats.New).1 := by
  unfold processFile
  by_cases h1 : env.mkdirOk <;> by_cases h2 : env.writeOk <;> simp [h1, h2]

/-- processFile updates the stats exactly when it succeeds. -/
theorem processFile_stats_char (b : Bool) (env : FileEnv) (f : File) (s : Stats) :
    (processFile b env f s).2 =
      if (processFile b env f Stats.New).1.err.isSome then s
      else s.AddFile f.path f.code := by
  unfold processFile
  by_cases h1 : env.mkdirOk <;> by_cases h2 : env.writeOk <;> simp [h1, h2]

/-- Closed form of the sequentialized worker-pool fold: the collected
errors are exactly the messages of the failing files, in order, and the
stats are the fold of AddFile over the successful files. -/
theorem batchLoop_spec (b : Bool) (pairs : List (FileEnv × File)) (e : List String) (s : Stats) :
    batchLoop b pairs (e, s) =
      (e ++ (pairs.filter (failsB b)).map (errMsg b),
       ((pairs.filter (fun p => !failsB b p)).map Prod.snd).foldl
         (fun t f => t.AddFile f.path f.code) s) := by
  induction pairs generalizing e s with
  | nil => simp [batchLoop]
  | cons p rest ih =>
    unfold batchLoop
    rw [List.foldl_cons]
    by_cases hp : failsB b p
    · obtain ⟨x, hx⟩ : ∃ x, (processFile b p.1 p.2 Stats.New).1.err = some x :=
        Option.isSome_iff_exists.mp hp
      have hout : (processFile b p.1 p.2 s).1.err = some x := by
        rw [processFile_outcome_indep]; exact hx
      have hst : (processFile b p.1 p.2 s).2 = s := by
        simp [processFile_stats_char, hx]
      simp only [hout, hst]
      have hrest := ih (e ++ [p.2.path ++ ": " ++ x]) s
      unfold batchLoop at hrest
      rw [hrest]
      have hmsg : errMsg b p = p.2.path ++ ": " ++ x := by
        simp [errMsg, hx]
      simp [List.filter_cons, hp, hmsg, List.map_cons]
    · have hnone : (processFile b p.1 p.2 Stats.New).1.err = none :=
        Option.not_isSome_iff_eq_none.mp hp
      have hout : (processFile b p.1 p.2 s).1.err = none := by
        rw [processFile_outcome_indep]; exact hnone
      have hst : (processFile b p.1 p.2 s).2 = s.AddFile p.2.path p.2.code := by
        simp [processFile_stats_char, hnone]
      simp only [hout, hst]
      have hrest := ih e (s.AddFile p.2.path p.2.code)
      unfold batchLoop at hrest
      rw [hrest]
      simp [List.filter_cons, hp, List.map_cons]

/-! ### Claim theorems -/

/-- C1: for every sequence of files processed by the batch engine, every
per-file error is collected without aborting sibling files (the error list
has exactly one entry per failing file and the stats still accumulate over
later successes), the run returns a non-nil error exactly when at least
one file failed, that error carries the failure count, and the final
stats are the fold of AddFile over exactly the successfully written
files. -/
theorem c1_batch_error_aggregation (b g : Bool) (pairs : List (FileEnv × File)) :
    (runBatch b g pairs).errs.length = (pairs.filter (failsB b)).length
    ∧ ((runBatch b g pairs).runErr = none ↔ (pairs.filter (failsB b)).length = 0)
    ∧ (runBatch b g pairs).runErr =
        (if 0 < (pairs.filter (failsB b)).length
         then some (toString (pairs.filter (failsB b)).length ++ " files failed")
         else none)
    ∧ (runBatch b g pairs).stats =
        ((pairs.filter (fun p => !failsB b p)).map Prod.snd).foldl
          (fun t f => t.AddFile f.path f.code) Stats.New := by
  unfold runBatch
  rw [batchLoop_spec]
  refine ⟨by simp, ?_, ?_, by simp⟩
  · by_cases h : (pairs.filter (failsB b)).length = 0 <;> simp [h]
  · by_cases h : (pairs.filter (failsB b)).length = 0 <;>
      simp [h, Nat.pos_of_ne_zero]

/-- C2: evaluation at the failing input of the commit-list claim. With two
files of which the second fails its write, the engine still attempts the
commit (one file succeeded) but hands the collaborator the paths of both
files — including the failed one — because getCreatedFiles maps over the
whole input list. The claim that only successfully written paths are
handed over is contradicted. -/
theorem c2_commit_list_includes_failed_path :
    (runBatch true true
      [(⟨true, true, false, true, true⟩, ⟨"a.go", "x"⟩),
       (⟨true, true, false, true, false⟩, ⟨"b.go", "y"⟩)]).committed
      = some ["a.go", "b.go"]
    ∧ (runBatch true true
      [(⟨true, true, false, true, true⟩, ⟨"a.go", "x"⟩),
       (⟨true, true, false, true, false⟩, ⟨"b.go", "y"⟩)]).errs
      = ["b.go: write file"]
    ∧ failsB true (⟨true, true, false, true, false⟩, ⟨"b.go", "y"⟩) = true := by
  decide

/-- C3: evaluation at the claimed input. The header-separator example —
a separator line followed by a go-tagged fenced block — yields no FileSpec
at all: the markdown grammar requires an in-block path comment, and the
fallback parseYAMLStyle is a stub returning nil, so the extraction returns
the empty list rather than the claimed single FileSpec. -/
theorem c3_header_separator_example_yields_nothing :
    ParseMultiFormat ("--- a/hello.go ---\n```go\npackage main\nfunc main()\x7b\x7d\n```") = []
    ∧ parseYAMLStyle ("--- a/hello.go ---\n```go\npackage main\nfunc main()\x7b\x7d\n```") = [] :=
  ⟨by decide, rfl⟩

/-- C4 counterexample: a fenced block whose body is a single whitespace
line (after a path comment) produces a FileSpec whose trimmed code is
empty, because the parser checks the length of the raw body before
trimming. This refutes the claim that every returned FileSpec has
non-empty trimmed code. -/
theorem c4_whitespace_body_emits_empty_code :
    ParseMultiFormat ("```go\n// path: a.go\n \n```") = [⟨"a.go", ""⟩] := by
  decide

/-- C4 (amended): every FileSpec returned by the extractor has a non-empty
path and a code field that is the trimmed form of a non-empty raw block
body; non-emptiness of the trimmed code itself is not guaranteed, since a
whitespace-only body passes the raw-length check. -/
theorem c4_code_trimmed_from_nonempty_body (content : String) (f : File)
    (hf : f ∈ ParseMultiFormat content) :
    f.path ≠ "" ∧ ∃ raw : List Char, raw ≠ [] ∧ f.code = String.mk (goTrimSpaceL raw) := by
  have hmem : f ∈ parseMarkdown content := by
    unfold ParseMultiFormat at hf
    cases hmd : parseMarkdown content with
    | nil => simp [hmd, parseYAMLStyle] at hf
    | cons a as => simpa [hmd] using hf
  exact foldl_good _ _ (by simp) f hmem

/-- C4 witness: the amended theorem applied to a concrete extraction. -/
theorem c4_code_trimmed_witness :
    (⟨"a.go", "hello"⟩ : File) ∈ ParseMultiFormat ("```go\n// path: a.go\nhello\n```")
    ∧ ((⟨"a.go", "hello"⟩ : File).path ≠ ""
        ∧ ∃ raw : List Char, raw ≠ []
            ∧ (⟨"a.go", "hello"⟩ : File).code = String.mk (goTrimSpaceL raw)) :=
  ⟨by decide,
    c4_code_trimmed_from_nonempty_body ("```go\n// path: a.go\nhello\n```")
      ⟨"a.go", "hello"⟩ (by decide)⟩

/-- C5 counterexample: at a concrete state, a failed stat of the watched
file does not stop the watch loop — the iteration returns with the loop
still running, the fingerprint unchanged and no pipeline run — refuting
the claim that the session ends. -/
theorem c5_stat_failure_does_not_stop :
    watchStep true true (fun _ => ⟨true, true, false, true, true⟩) 7 (.tick .statErr)
      = ⟨false, 7, none⟩ :=
  rfl

/-- C5 (amended): when the stat of the watched file fails, the poll cycle
is skipped and the loop continues with its state unchanged; the watch
session ends only on cancellation. -/
theorem c5_stat_failure_continues_loop (b g : Bool) (envOf : Nat → FileEnv)
    (lastMod : Nat) :
    watchStep b g envOf lastMod (.tick .statErr) = ⟨false, lastMod, none⟩
    ∧ watchStep b g envOf lastMod .ctxDone = ⟨true, lastMod, none⟩ :=
  ⟨rfl, rfl⟩

/-- C6: the extractor attempts the markdown (fenced-block-with-inline-path)
grammar first; a non-empty result from it is returned as is, and the
header-separator grammar is consulted — alone, with no merging — only when
the first grammar yields zero FileSpecs. -/
theorem c6_first_grammar_wins (content : String) :
    ParseMultiFormat content =
      if parseMarkdown content = [] then parseYAMLStyle content
      else parseMarkdown content := by
  unfold ParseMultiFormat
  cases h : parseMarkdown content <;> simp [h, parseYAMLStyle]

/-- C7: per-file validation is advisory. The returned error, the write
decision and the stats update of processFile are identical whether a
validator is absent, present and passing, or present and failing; a
validation failure (with the directory step succeeding) is surfaced as a
logged warning; and a failing validator does not prevent the write when
the write itself succeeds. -/
theorem c7_validation_advisory (b bo mo hv vv wo : Bool) (f : File) (s : Stats) :
    ((processFile b ⟨bo, mo, hv, vv, wo⟩ f s).1.err
        = (processFile b ⟨bo, mo, false, true, wo⟩ f s).1.err)
    ∧ ((processFile b ⟨bo, mo, hv, vv, wo⟩ f s).1.wrote
        = (processFile b ⟨bo, mo, false, true, wo⟩ f s).1.wrote)
    ∧ ((processFile b ⟨bo, mo, hv, vv, wo⟩ f s).2
        = (processFile b ⟨bo, mo, false, true, wo⟩ f s).2)
    ∧ (mo = true → hv = true → vv = false →
        ("Validation warning " ++ f.path) ∈ (processFile b ⟨bo, mo, hv, vv, wo⟩ f s).1.warnings)
    ∧ (mo = true → wo = true →
        (processFile b ⟨bo, mo, hv, vv, wo⟩ f s).1.wrote = true) := by
  cases mo <;> cases wo <;> cases hv <;> cases vv <;> simp [processFile]

/-- C7 witness: the advisory-validation theorem applied to a concrete
file whose validator fails while the write succeeds. -/
theorem c7_validation_advisory_witness :
    ("Validation warning " ++ (⟨"a.go", "x"⟩ : File).path)
      ∈ (processFile true ⟨true, true, true, false, true⟩ ⟨"a.go", "x"⟩ Stats.New).1.warnings
    ∧ (processFile true ⟨true, true, true, false, true⟩ ⟨"a.go", "x"⟩ Stats.New).1.wrote
      = true := by
  have h := c7_validation_advisory true true true true false true ⟨"a.go", "x"⟩ Stats.New
  exact ⟨h.2.2.2.1 rfl rfl rfl, h.2.2.2.2 rfl rfl⟩

/-- C8: when a change is detected (the polled modification time is later
than the stored fingerprint), the fingerprint is updated to the new value
for every possible per-file environment — hence regardless of whether the
triggered pipeline run succeeds — and a later poll cycle seeing the same
modification time neither re-triggers the pipeline nor changes the
fingerprint. -/
theorem c8_fingerprint_update_regardless (b g : Bool) (envOf : Nat → FileEnv)
    (lastMod mt : Nat) (content : String) (hlt : lastMod < mt) :
    (watchStep b g envOf lastMod (.tick (.statOk mt content))).lastMod = mt
    ∧ (watchStep b g envOf mt (.tick (.statOk mt content))).ran = none
    ∧ (watchStep b g envOf mt (.tick (.statOk mt content))).lastMod = mt := by
  refine ⟨?_, ?_, ?_⟩
  · simp only [watchStep]
    rw [if_pos hlt]
    split <;> rfl
  · simp only [watchStep]
    rw [if_neg (lt_irrefl mt)]
  · simp only [watchStep]
    rw [if_neg (lt_irrefl mt)]

/-- C8 witness: the fingerprint-update theorem at a concrete trigger whose
pipeline run fails (the write of the single extracted file fails). -/
theorem c8_fingerprint_update_witness :
    (watchStep true true (fun _ => ⟨true, true, false, true, false⟩) 0
        (.tick (.statOk 1 ("```go\n// path: w.go\nz\n```")))).lastMod = 1
    ∧ (watchStep true true (fun _ => ⟨true, true, false, true, false⟩) 1
        (.tick (.statOk 1 ("```go\n// path: w.go\nz\n```")))).ran = none
    ∧ (watchStep true true (fun _ => ⟨true, true, false, true, false⟩) 1
        (.tick (.statOk 1 ("```go\n// path: w.go\nz\n```")))).lastMod = 1 :=
  c8_fingerprint_update_regardless true true (fun _ => ⟨true, true, false, true, false⟩)
    0 1 ("```go\n// path: w.go\nz\n```") (by decide)

/-- C9: the extractor is a total function, and on text whose lines contain
no fence and no path marker it returns the empty sequence rather than
failing. -/
theorem c9_no_fences_returns_empty (content : String)
    (hf : (splitNl content.data).all
      (fun l => !(fenceTok.isPrefixOf (goTrimSpaceL l))) = true)
    (_hp : (splitNl content.data).all
      (fun l => !(hasSubList pathTok l)) = true) :
    ParseMultiFormat content = [] := by
  have hmd : parseMarkdown content = [] := by
    unfold parseMarkdown
    rw [foldl_no_fence _ _ rfl]
    intro l hl
    have := List.all_eq_true.mp hf l hl
    simpa using this
  simp [ParseMultiFormat, hmd, parseYAMLStyle]

/-- C9 witness: the empty-result theorem applied to a concrete fence-free,
marker-free text. -/
theorem c9_no_fences_witness :
    ((splitNl ("just prose\nwith no markers").data).all
      (fun l => !(fenceTok.isPrefixOf (goTrimSpaceL l))) = true)
    ∧ ((splitNl ("just prose\nwith no markers").data).all
      (fun l => !(hasSubList pathTok l)) = true)
    ∧ ParseMultiFormat ("just prose\nwith no markers") = [] :=
  ⟨by decide, by decide,
    c9_no_fences_returns_empty ("just prose\nwith no markers") (by decide) (by decide)⟩

/-- C10: after any sequence of AddFile calls on a fresh Stats, TotalFiles
equals the sum of the counts in the Languages map, TotalBytes equals the
sum of the byte lengths of the added code strings, no key of the map
carries a leading dot, and a path whose final element has no dot is
bucketed under the unknown key. -/
theorem c10_stats_invariant (l : List (String × String)) :
    (l.foldl (fun acc p => acc.AddFile p.1 p.2) Stats.New).TotalFiles
        = sumCounts (l.foldl (fun acc p => acc.AddFile p.1 p.2) Stats.New).Languages
    ∧ (l.foldl (fun acc p => acc.AddFile p.1 p.2) Stats.New).TotalBytes
        = (l.map (fun p => goLen p.2)).sum
    ∧ (∀ k n, (k, n) ∈ (l.foldl (fun acc p => acc.AddFile p.1 p.2) Stats.New).Languages →
        k.data.head? ≠ some '.')
    ∧ (∀ path : String,
        (path.data.reverse.takeWhile (fun c => c ≠ '/')).all (fun c => c ≠ '.') = true →
        statsKey path = "unknown") := by
  have h := foldStats_counts l Stats.New
  refine ⟨?_, ?_, ?_, ?_⟩
  · rw [h.1, h.2.2]; simp [Stats.New, sumCounts]
  · rw [h.2.1]; simp [Stats.New]
  · exact foldStats_keys l Stats.New (by simp [Stats.New])
  · intro path hpath
    unfold statsKey
    rw [extRev_no_dot_elem _ _ hpath]
    rfl

/-- C10 witness: the invariant applied to a concrete AddFile sequence,
with the membership and no-dot hypotheses discharged on concrete data. -/
theorem c10_stats_witness :
    ("go" : String).data.head? ≠ some '.'
    ∧ statsKey ("README") = "unknown"
    ∧ (([(("a.go" : String), ("hi" : String))]).foldl
        (fun acc p => acc.AddFile p.1 p.2) Stats.New).TotalFiles
      = sumCounts (([(("a.go" : String), ("hi" : String))]).foldl
        (fun acc p => acc.AddFile p.1 p.2) Stats.New).Languages := by
  have h := c10_stats_invariant [(("a.go" : String), ("hi" : String))]
  exact ⟨h.2.2.1 ("go") 1 (by decide), h.2.2.2 ("README") (by decide), h.1⟩

end GoScaffold
